import Mathlib

set_option linter.unusedVariables false

/-!
Verification of the CQ inline-code module (src/utils/CQcode.mjs).

Strings are modelled as lists of Unicode scalar values (Lean Char);
the surrogate-pair alternation of the pictographic regex is read as the
corresponding scalar-value ranges.  The regex-based scanner of the
source is embedded as an equivalent deterministic scanner: in the
concrete pattern involved, every character class excludes the character
that the following piece of the pattern has to match next, so the
backtracking search of a regex engine never revisits a choice and the
match at a given start position is unique; the soundness and
completeness lemmas below relate the scanner to the declarative grammar
of the markup.

The external collaborators of the module (content cache, retrying
transport, logger, the promise-limit concurrency gate, and the Node
path-to-file-URL conversion) are not part of the repository source;
they are modelled from the spec where needed.
-/

abbrev Str := List Char

/-- JS String.prototype.replace with a global pattern that is a literal
string: scans left to right, replaces non-overlapping occurrences, and
never rescans the replacement text. -/
def replaceAll (pat rep : Str) : Str → Str
  | [] => []
  | c :: rest =>
    if h : pat ≠ [] ∧ pat.isPrefixOf (c :: rest) then
      rep ++ replaceAll pat rep ((c :: rest).drop pat.length)
    else
      c :: replaceAll pat rep rest
termination_by s => s.length
decreasing_by
  · simp only [List.length_drop, List.length_cons]
    have hp : 0 < pat.length := List.length_pos.mpr h.1
    omega
  · simp

/-- The escape entity for the ampersand. -/
def sAmp : Str := ['&', 'a', 'm', 'p', ';']

/-- The escape entity for the comma. -/
def sC44 : Str := ['&', '#', '4', '4', ';']

/-- The escape entity for the opening bracket. -/
def sC91 : Str := ['&', '#', '9', '1', ';']

/-- The escape entity for the closing bracket. -/
def sC93 : Str := ['&', '#', '9', '3', ';']

/-- The pictographic ranges stripped inside CQ fields: the scalar-value
reading of the source regex (U+1F300 to U+1F3FF and U+1F400 to U+1F64F
and U+1F680 to U+1F6FF from the paired-surrogate alternatives, and
U+2600 to U+2B55). -/
def emojiChar (c : Char) : Bool :=
  (0x1F300 ≤ c.toNat && c.toNat ≤ 0x1F3FF) ||
  (0x1F400 ≤ c.toNat && c.toNat ≤ 0x1F64F) ||
  (0x1F680 ≤ c.toNat && c.toNat ≤ 0x1F6FF) ||
  (0x2600 ≤ c.toNat && c.toNat ≤ 0x2B55)

/-- A JS field value as this module uses them: a string, a number (the
message and user ids of the builders), a non-string object rendered by
its JS string conversion (the URL object built in imgPreDl), or
null/undefined. -/
inductive CQVal where
  | str (s : Str)
  | num (n : Nat)
  | obj (s : Str)
  | nil
deriving DecidableEq

/-- The isNil test of lodash: true exactly on null/undefined. -/
def CQVal.isNil : CQVal → Bool
  | .nil => true
  | _ => false

/-- JS string conversion as applied by Array.prototype.join: strings
unchanged, numbers in decimal, objects by their string conversion,
null and undefined as the empty string. -/
def CQVal.render : CQVal → Str
  | .str s => s
  | .num n => (Nat.repr n).data
  | .obj s => s
  | .nil => []

/-- The CQCode entity: a type name and the insertion-ordered key-value
store of the underlying JS Map. -/
structure CQCode where
  type : Str
  data : List (Str × CQVal)
deriving DecidableEq

/-- JS Map.prototype.set on an insertion-ordered association list:
update in place when the key is present, append otherwise.  Also the
update step of a JS object literal accumulation; the special numeric
ordering JS objects give to integer-like keys is not modelled, and the
results of parsing are therefore compared through key lookup. -/
def assocSet (l : List (Str × CQVal)) (k : Str) (v : CQVal) : List (Str × CQVal) :=
  match l with
  | [] => [(k, v)]
  | kv :: rest => if kv.1 = k then (kv.1, v) :: rest else kv :: assocSet rest k v

/-- JS Map.prototype.get as an optional lookup. -/
def assocGet (l : List (Str × CQVal)) (k : Str) : Option CQVal :=
  match l with
  | [] => none
  | kv :: rest => if kv.1 = k then some kv.2 else assocGet rest k

namespace CQCode

/-- The set method of the entity. -/
def set (c : CQCode) (k : Str) (v : CQVal) : CQCode :=
  { type := c.type, data := assocSet c.data k v }

/-- The del method of the entity (Map.prototype.delete). -/
def del (c : CQCode) (k : Str) : CQCode :=
  { type := c.type, data := c.data.filter (fun kv => !(kv.1 == k)) }

/-- CQCode.escape: replace the ampersand, then the opening bracket,
then the closing bracket; additionally, inside a CQ code, replace the
comma and then strip the pictographic ranges to a single space. -/
def escape (s : Str) (insideCQ : Bool) : Str :=
  let result := replaceAll [']'] sC93 (replaceAll ['['] sC91 (replaceAll ['&'] sAmp s))
  if insideCQ then
    (replaceAll [','] sC44 result).map (fun c => if emojiChar c then ' ' else c)
  else
    result

/-- CQCode.unescape: the four entity substitutions, comma first and
ampersand last. -/
def unescape (s : Str) : Str :=
  replaceAll sAmp ['&'] (replaceAll sC93 [']'] (replaceAll sC91 ['['] (replaceAll sC44 [','] s)))

/-- CQCode.escapeInsideCQ lifted to field values: the typeof guard of
the source leaves non-strings untouched. -/
def escapeInsideCQ : CQVal → CQVal
  | .str s => .str (escape s true)
  | v => v

/-- CQCode.prototype.toString: the non-nil fields, each rendered as
escaped key, equals sign, escaped value, joined by commas after the
type tag, inside brackets. -/
def toString (c : CQCode) : Str :=
  let list := (c.data.filter (fun kv => !(kv.2.isNil))).map
    (fun kv => (escapeInsideCQ (.str kv.1)).render ++ '=' :: (escapeInsideCQ kv.2).render)
  '[' :: List.intercalate [','] (('C' :: 'Q' :: ':' :: c.type) :: list) ++ [']']

end CQCode

/-- Characters allowed in the type part of the pattern: everything but
the comma and the brackets. -/
def typeChar (c : Char) : Bool := !(c == ',') && !(c == '[') && !(c == ']')

/-- Characters allowed in a key: everything but the comma, the equals
sign and the brackets. -/
def keyChar (c : Char) : Bool := !(c == ',') && !(c == '=') && !(c == '[') && !(c == ']')

/-- Characters allowed in a value: everything but the comma and the
brackets (the equals sign is allowed). -/
def valChar (c : Char) : Bool := !(c == ',') && !(c == '[') && !(c == ']')

theorem dropWhile_length_le (p : Char → Bool) (l : Str) : (l.dropWhile p).length ≤ l.length := by
  induction l with
  | nil => simp
  | cons a t ih =>
    by_cases h : p a
    · rw [List.dropWhile_cons_of_pos h]
      simp
      omega
    · rw [List.dropWhile_cons_of_neg h]

/-- The pair-list part of the source pattern: greedily match zero or
more groups of comma, nonempty key, equals sign, value, then the
closing bracket; return the raw matched pair text (capture group 2 of
the source regex) and the input following the closing bracket. -/
def matchPairs : Str → Option (Str × Str)
  | [] => none
  | c :: rest =>
    if c = ']' then some ([], rest)
    else if c = ',' then
      if h : rest.takeWhile keyChar ≠ [] ∧ (rest.dropWhile keyChar).head? = some '=' then
        let rest2 := (rest.dropWhile keyChar).tail
        match matchPairs (rest2.dropWhile valChar) with
        | some (ds, rest3) =>
            some (',' :: (rest.takeWhile keyChar ++ '=' :: (rest2.takeWhile valChar ++ ds)), rest3)
        | none => none
      else none
    else none
termination_by s => s.length
decreasing_by
  have h0 : rest.dropWhile keyChar ≠ [] := by
    intro he
    rw [he] at h
    simp at h
  have h1 := dropWhile_length_le keyChar rest
  have h2 := dropWhile_length_le valChar ((rest.dropWhile keyChar).tail)
  have h3 : ((rest.dropWhile keyChar).tail).length < (rest.dropWhile keyChar).length := by
    cases hq : rest.dropWhile keyChar with
    | nil => exact absurd hq h0
    | cons a t => simp
  simp only [List.length_cons]
  omega

theorem matchPairs_length (s : Str) :
    ∀ ds rest, matchPairs s = some (ds, rest) → rest.length < s.length := by
  induction s using matchPairs.induct with
  | case1 =>
    intro ds rest h
    simp [matchPairs] at h
  | case2 r =>
    intro ds rest h
    simp [matchPairs] at h
    simp [h.2.symm]
  | case3 r hcond rest2 ds0 rest3 hrec hne ih =>
    intro ds rest h
    rw [matchPairs] at h
    simp only [dif_pos hcond] at h
    simp [hrec] at h
    obtain ⟨h1, h2⟩ := h
    subst h2
    have hlt := ih ds0 rest3 hrec
    have hr2 : rest2 = (r.dropWhile keyChar).tail := rfl
    simp only [hr2] at hlt
    have h0 : r.dropWhile keyChar ≠ [] := by
      intro he
      rw [he] at hcond
      simp at hcond
    have h1' := dropWhile_length_le keyChar r
    have h2' := dropWhile_length_le valChar ((r.dropWhile keyChar).tail)
    have h3 : ((r.dropWhile keyChar).tail).length < (r.dropWhile keyChar).length := by
      cases hq : r.dropWhile keyChar with
      | nil => exact absurd hq h0
      | cons a t => simp
    simp only [List.length_cons]
    omega
  | case4 r hcond rest2 hnone hne ih =>
    intro ds rest h
    rw [matchPairs] at h
    simp only [dif_pos hcond] at h
    simp [hnone] at h
  | case5 r hcond hne =>
    intro ds rest h
    rw [matchPairs] at h
    simp only [dif_neg hcond] at h
    simp at h
  | case6 c r hc1 hc2 =>
    intro ds rest h
    simp [matchPairs, hc1, hc2] at h

/-- One attempt of the source regex at the start of the input: the
literal opening, a nonempty type, the pair list, the closing bracket.
Returns the type, the raw pair text and the remaining input. -/
def tryMatchAt : Str → Option (Str × Str × Str)
  | '[' :: 'C' :: 'Q' :: ':' :: rest =>
    if (rest.takeWhile typeChar).isEmpty then none
    else
      match matchPairs (rest.dropWhile typeChar) with
      | some (ds, rest2) => some (rest.takeWhile typeChar, ds, rest2)
      | none => none
  | _ => none

theorem tryMatchAt_length (s t ds rest : Str) (h : tryMatchAt s = some (t, ds, rest)) :
    rest.length < s.length := by
  rw [tryMatchAt.eq_def] at h
  split at h
  · next r =>
    split at h
    · simp at h
    · split at h
      · next ds0 rest2 hmp =>
        simp at h
        obtain ⟨h1, h2, h3⟩ := h
        subst h3
        have hl := matchPairs_length _ _ _ hmp
        have hd := dropWhile_length_le typeChar r
        simp only [List.length_cons]
        omega
      · simp at h
  · simp at h

/-- The exec loop of CQCode.from over the global regex: search for the
next match from the current position, emit it, and continue right
after the matched text. -/
def scanCQ : Str → List (Str × Str)
  | [] => []
  | c :: rest =>
    match hm : tryMatchAt (c :: rest) with
    | some (t, ds, rest2) => (t, ds) :: scanCQ rest2
    | none => scanCQ rest
termination_by s => s.length
decreasing_by
  · exact tryMatchAt_length _ _ _ _ hm
  · simp

namespace CQCode

/-- The per-pair step of CQCode.from: split the raw pair on every
equals sign, take the first piece as the key, rejoin the remaining
pieces with equals signs as the value, unescape both, and assign into
the accumulated object. -/
def parseKV (obj : List (Str × CQVal)) (kv : Str) : List (Str × CQVal) :=
  match kv.splitOn '=' with
  | [] => obj
  | k :: vs => assocSet obj (unescape k) (.str (unescape (List.intercalate ['='] vs)))

/-- The data processing of CQCode.from: split the raw pair text on
commas, drop the empty segments (the lodash filter over truthiness),
and accumulate the pairs into an object. -/
def parseData (dataStr : Str) : List (Str × CQVal) :=
  ((dataStr.splitOn ',').filter (fun l => !l.isEmpty)).foldl parseKV []

/-- CQCode.from: all matches of the pattern over the input, each turned
into an entity carrying the type verbatim and the processed data. -/
def fromStr (s : Str) : List CQCode :=
  (scanCQ s).map (fun td => { type := td.1, data := parseData td.2 })

/-- CQCode.img: the image builder. -/
def img (file : Str) (type : CQVal) : Str :=
  toString { type := "image".data, data := [("file".data, .str file), ("type".data, type)] }

/-- CQCode.at: the mention builder (the user id is a JS number). -/
def «at» (qq : Nat) : Str :=
  toString { type := "at".data, data := [("qq".data, .num qq)] }

/-- CQCode.atAll: the fixed mention-all constant. -/
def atAll : Str := "[CQ:at,qq=all]".data

/-- CQCode.reply: the reply builder (the message id is a JS number). -/
def reply (id : Nat) : Str :=
  toString { type := "reply".data, data := [("id".data, .num id)] }

end CQCode

/-- Modelled from the spec: the collaborator interfaces of the media
pre-fetch helper — content cache lookup and store keyed by the URL,
and the retrying transport; each fallible call either returns a value
or fails with an error detail (a thrown JS exception).  The cache
lookup returns the local path on a hit and nothing on a miss. -/
structure PrefetchEnv where
  getCache : Str → Except Str (Option Str)
  retryGet : Str → Except Str (List Nat)
  createCache : Str → List Nat → Except Str Str

/-- Modelled from the spec: the Node conversion of a local path into a
local-file URL understood by message renderers; beyond carrying the
file scheme prefix its encoding is not re-specified. -/
def pathToFileURL (p : Str) : Str := "file://".data ++ p

/-- One observable collaborator interaction of the pre-fetch helper. -/
inductive Effect where
  | cacheLookup (url : Str)
  | limiterAcquire
  | transportGet (url : Str)
  | cacheWrite (url : Str)
  | logMsg (m : Str)
deriving DecidableEq

/-- The catch block of imgPreDl: the fixed message, then the error
detail, through the logging collaborator. -/
def errLog (e : Str) : List Effect :=
  [.logMsg "[error] cq img pre-download".data, .logMsg e]

/-- True exactly on logger effects. -/
def Effect.isLog : Effect → Bool
  | .logMsg _ => true
  | _ => false

namespace CQCode

/-- CQCode.imgPreDl as an effect-trace function: look the URL up in
the cache; on a miss acquire a limiter slot and fetch through the
transport, then store the bytes into the cache; build the image code
over the file URL of the local path.  The try/catch of the source
becomes the error branches, each appending the catch block logs and
returning the fallback image code over the original URL.  Every
collaborator call is recorded in order. -/
def imgPreDl (env : PrefetchEnv) (url : Str) (type : CQVal) : List Effect × Str :=
  match env.getCache url with
  | .error e => ([.cacheLookup url] ++ errLog e, img url type)
  | .ok (some path) =>
      ([.cacheLookup url],
        toString { type := "image".data,
                   data := [("file".data, .obj (pathToFileURL path)), ("type".data, type)] })
  | .ok none =>
      match env.retryGet url with
      | .error e => ([.cacheLookup url, .limiterAcquire, .transportGet url] ++ errLog e, img url type)
      | .ok bytes =>
          match env.createCache url bytes with
          | .error e =>
              ([.cacheLookup url, .limiterAcquire, .transportGet url, .cacheWrite url] ++ errLog e,
                img url type)
          | .ok path =>
              ([.cacheLookup url, .limiterAcquire, .transportGet url, .cacheWrite url],
                toString { type := "image".data,
                           data := [("file".data, .obj (pathToFileURL path)), ("type".data, type)] })

end CQCode

/-- Modelled from the spec: the state of the promise-limit gate, the
number of running jobs and the number of queued jobs. -/
structure LimiterState where
  active : Nat
  pending : Nat
deriving DecidableEq

/-- Modelled from the spec: the transitions of the promise-limit gate —
a job is submitted to the queue, a queued job starts only while fewer
than the capacity are running, and a running job finishes. -/
inductive LimiterStep (cap : Nat) : LimiterState → LimiterState → Prop where
  | submit (a p : Nat) : LimiterStep cap ⟨a, p⟩ ⟨a, p + 1⟩
  | start (a p : Nat) : a < cap → LimiterStep cap ⟨a, p + 1⟩ ⟨a + 1, p⟩
  | finish (a p : Nat) : LimiterStep cap ⟨a + 1, p⟩ ⟨a, p⟩

/-- States reachable from the idle gate. -/
inductive LimiterReach (cap : Nat) : LimiterState → Prop where
  | init : LimiterReach cap ⟨0, 0⟩
  | step {s t : LimiterState} : LimiterReach cap s → LimiterStep cap s t → LimiterReach cap t

/-- The capacity of the shared download gate dlImgLimit of the source. -/
def dlImgLimitCap : Nat := 4

/-- One global single-character substitution, the wording of the spec
for one replace step. -/
def substChar (c : Char) (rep : Str) (s : Str) : Str :=
  s.flatMap (fun x => if x = c then rep else [x])

/-- Plain-mode escaping as the spec words it: ampersand first, then
the opening bracket, then the closing bracket. -/
def escapeSpecPlain (s : Str) : Str :=
  substChar ']' sC93 (substChar '[' sC91 (substChar '&' sAmp s))

/-- Inside-field escaping as the spec words it: plain mode, then the
comma, then every pictographic symbol becomes one space. -/
def escapeSpecInside (s : Str) : Str :=
  (substChar ',' sC44 (escapeSpecPlain s)).map (fun c => if emojiChar c then ' ' else c)

/-- Serialization as the spec words it: the opening and the type, then
for each field in insertion order whose value is not nil a comma, the
inside-field-escaped key, the equals sign and the inside-field-escaped
value (escaping applies only to string values), then the closing
bracket. -/
def serializeSpec (c : CQCode) : Str :=
  '[' :: 'C' :: 'Q' :: ':' :: c.type ++
    (c.data.filter (fun kv => !(kv.2.isNil))).flatMap
      (fun kv => ',' :: (CQCode.escape kv.1 true ++ '=' :: (CQCode.escapeInsideCQ kv.2).render))
    ++ [']']

/-- A well-formed type piece: nonempty, all characters in the type
class. -/
def GoodType (t : Str) : Prop := t ≠ [] ∧ ∀ c ∈ t, typeChar c = true

/-- The declarative grammar of the raw pair text: zero or more groups
of comma, nonempty key, equals sign, value. -/
inductive PairsStr : Str → Prop where
  | nil : PairsStr []
  | cons (k v rest : Str) : k ≠ [] → (∀ c ∈ k, keyChar c = true) → (∀ c ∈ v, valChar c = true) →
      PairsStr rest → PairsStr (',' :: (k ++ '=' :: (v ++ rest)))

/-- A full inline code with type t and raw pair text ds, followed by
the rest of the text. -/
def codeAt (t ds rest : Str) : Str :=
  '[' :: 'C' :: 'Q' :: ':' :: (t ++ (ds ++ ']' :: rest))

/-- The text begins with a well-formed inline code. -/
def StartsCode (s : Str) : Prop :=
  ∃ t ds rest, GoodType t ∧ PairsStr ds ∧ s = codeAt t ds rest

/-- Left-to-right, non-overlapping decomposition of a text into the
well-formed inline codes it contains: a skipped character starts no
code, a found code is consumed whole and scanning resumes right after
it, so the content of a code is never rescanned. -/
inductive Matches : Str → List (Str × Str) → Prop where
  | nil : Matches [] []
  | skip (c : Char) (s : Str) (ms : List (Str × Str)) :
      ¬ StartsCode (c :: s) → Matches s ms → Matches (c :: s) ms
  | found (t ds rest : Str) (ms : List (Str × Str)) : GoodType t → PairsStr ds →
      Matches rest ms → Matches (codeAt t ds rest) ((t, ds) :: ms)

/-- The reserved characters of the round-trip claims. -/
def reservedChar (c : Char) : Bool :=
  (c == ',') || (c == '=') || (c == '[') || (c == ']') || (c == '&')

/-- A character safe inside a serialized field: not reserved and not a
stripped pictographic symbol. -/
def fieldSafe (c : Char) : Bool := !(reservedChar c) && !(emojiChar c)

/-- The hypothesis of the stated round-trip claim: keys and string
values use only characters outside the reserved set. -/
def claimC1Hyp (e : CQCode) : Prop :=
  ∀ kv ∈ e.data, (∀ c ∈ kv.1, reservedChar c = false) ∧
    ∀ t, kv.2 = CQVal.str t → ∀ c ∈ t, reservedChar c = false

/-- Structural equality of entities: same type, same fields under key
lookup. -/
def structEq (a b : CQCode) : Prop :=
  a.type = b.type ∧ ∀ k, assocGet a.data k = assocGet b.data k

/-- The four literal entity sequences do not occur in the text. -/
def NoEntitySeq (s : Str) : Prop :=
  ¬ List.IsInfix sAmp s ∧ ¬ List.IsInfix sC44 s ∧
  ¬ List.IsInfix sC91 s ∧ ¬ List.IsInfix sC93 s

theorem replaceAll_cons_ne (a : Char) (p rep : Str) (x : Char) (xs : Str) (h : x ≠ a) :
    replaceAll (a :: p) rep (x :: xs) = x :: replaceAll (a :: p) rep xs := by
  rw [replaceAll, dif_neg]
  intro hc
  have h2 := hc.2
  simp [List.isPrefixOf] at h2
  exact h h2.1.symm

theorem replaceAll_id (a : Char) (p rep : Str) (s : Str) (h : a ∉ s) :
    replaceAll (a :: p) rep s = s := by
  induction s with
  | nil => rw [replaceAll]
  | cons x xs ih =>
    have hx : x ≠ a := by
      intro he
      exact h (he ▸ List.mem_cons_self x xs)
    rw [replaceAll_cons_ne a p rep x xs hx, ih (fun hm => h (List.mem_cons_of_mem _ hm))]

theorem replaceAll_head (pat rep t : Str) (hne : pat ≠ []) :
    replaceAll pat rep (pat ++ t) = rep ++ replaceAll pat rep t := by
  cases pat with
  | nil => exact absurd rfl hne
  | cons a p =>
    show replaceAll (a :: p) rep (a :: (p ++ t)) = _
    rw [replaceAll, dif_pos]
    · congr 1
      have : (a :: (p ++ t)).drop (a :: p).length = t := by
        simp only [List.length_cons, List.drop_succ_cons]
        exact List.drop_left p t
      rw [this]
    · refine ⟨hne, ?_⟩
      have : (a :: p) <+: (a :: p) ++ t := List.prefix_append _ _
      exact List.isPrefixOf_iff_prefix.mpr this

theorem replaceAll_single (c : Char) (rep : Str) (s : Str) :
    replaceAll [c] rep s = substChar c rep s := by
  induction s with
  | nil => rw [replaceAll]; rfl
  | cons x xs ih =>
    by_cases hx : x = c
    · subst hx
      have := replaceAll_head [x] rep xs (by simp)
      simp only [List.singleton_append] at this
      rw [this, ih]
      simp [substChar]
    · rw [replaceAll_cons_ne c [] rep x xs hx, ih]
      simp [substChar, hx]

/-- The per-character effect of the whole escape chain: the three or
four entity substitutions and the pictographic stripping never touch
the output of one another, so escaping is a character-wise encoding. -/
def encChar (insideCQ : Bool) (c : Char) : Str :=
  if c = '&' then sAmp
  else if c = '[' then sC91
  else if c = ']' then sC93
  else if insideCQ then
    if c = ',' then sC44
    else if emojiChar c then [' ']
    else [c]
  else [c]

theorem escapePlain_eq_flatMap (s : Str) :
    replaceAll [']'] sC93 (replaceAll ['['] sC91 (replaceAll ['&'] sAmp s)) =
      s.flatMap (encChar false) := by
  rw [replaceAll_single, replaceAll_single, replaceAll_single]
  simp only [substChar, List.flatMap_assoc]
  apply List.flatMap_congr
  intro x hx
  by_cases h1 : x = '&'
  · subst h1
    decide
  by_cases h2 : x = '['
  · subst h2
    decide
  by_cases h3 : x = ']'
  · subst h3
    decide
  simp [h1, h2, h3, encChar]

theorem escape_eq_flatMap (b : Bool) (s : Str) :
    CQCode.escape s b = s.flatMap (encChar b) := by
  cases b with
  | false => simpa [CQCode.escape] using escapePlain_eq_flatMap s
  | true =>
    show (replaceAll [','] sC44
        (replaceAll [']'] sC93 (replaceAll ['['] sC91 (replaceAll ['&'] sAmp s)))).map
        (fun c => if emojiChar c then ' ' else c) = _
    rw [escapePlain_eq_flatMap, replaceAll_single]
    simp only [substChar, List.flatMap_assoc]
    rw [List.map_flatMap]
    apply List.flatMap_congr
    intro x hx
    by_cases h1 : x = '&'
    · subst h1
      decide
    by_cases h2 : x = '['
    · subst h2
      decide
    by_cases h3 : x = ']'
    · subst h3
      decide
    by_cases h4 : x = ','
    · subst h4
      decide
    by_cases h5 : emojiChar x
    · simp [h1, h2, h3, h4, h5, encChar]
    · simp [h1, h2, h3, h4, h5, encChar]

theorem replaceAll_cons_not_pre (pat rep : Str) (x : Char) (xs : Str)
    (h : pat.isPrefixOf (x :: xs) = false) :
    replaceAll pat rep (x :: xs) = x :: replaceAll pat rep xs := by
  rw [replaceAll, dif_neg]
  intro hc
  rw [hc.2] at h
  exact absurd h (by simp)

theorem prefix_getElem_eq (p l : List Char) (hp : p.isPrefixOf l = true)
    (j : Nat) (hj : j < p.length) : p[j]? = l[j]? := by
  have hpre : p <+: l := List.isPrefixOf_iff_prefix.mp hp
  obtain ⟨u, hu⟩ := hpre
  rw [← hu, List.getElem?_append_left hj]

/-- If the pattern mismatches the block at every offset, within the
block, then the replace walks over the block unchanged, whatever text
follows. -/
theorem replaceAll_block (p r b t : Str)
    (hm : ∀ i, i < b.length → ∃ j, j < p.length ∧ i + j < b.length ∧ p[j]? ≠ b[i + j]?) :
    replaceAll p r (b ++ t) = b ++ replaceAll p r t := by
  induction b with
  | nil => simp
  | cons x bs ih =>
    have hstep : p.isPrefixOf (x :: (bs ++ t)) = false := by
      by_contra hb
      have hb' : p.isPrefixOf (x :: (bs ++ t)) = true := by
        cases hq : p.isPrefixOf (x :: (bs ++ t)) with
        | true => rfl
        | false => exact absurd hq hb
      obtain ⟨j, hj1, hj2, hj3⟩ := hm 0 (by simp)
      simp only [Nat.zero_add] at hj2 hj3
      have := prefix_getElem_eq p (x :: (bs ++ t)) hb' j hj1
      rw [show x :: (bs ++ t) = (x :: bs) ++ t by simp] at this
      rw [List.getElem?_append_left hj2] at this
      exact hj3 this
    show replaceAll p r (x :: (bs ++ t)) = _
    rw [replaceAll_cons_not_pre p r x (bs ++ t) hstep]
    rw [ih]
    · simp
    · intro i hi
      obtain ⟨j, hj1, hj2, hj3⟩ := hm (i + 1) (by simp; omega)
      refine ⟨j, hj1, by simp at hj2 ⊢; omega, ?_⟩
      have harr : i + 1 + j = (i + j) + 1 := by omega
      rw [harr] at hj3
      rw [List.getElem?_cons_succ] at hj3
      exact hj3

/-- The character-wise state of an escaped text after the comma entity
has been decoded. -/
def dec1 (b : Bool) (c : Char) : Str :=
  if c = '&' then sAmp
  else if c = '[' then sC91
  else if c = ']' then sC93
  else if b && emojiChar c then [' ']
  else [c]

/-- After decoding the comma and the opening bracket entities. -/
def dec2 (b : Bool) (c : Char) : Str :=
  if c = '&' then sAmp
  else if c = ']' then sC93
  else if b && emojiChar c then [' ']
  else [c]

/-- After also decoding the closing bracket entity. -/
def dec3 (b : Bool) (c : Char) : Str :=
  if c = '&' then sAmp
  else if b && emojiChar c then [' ']
  else [c]

/-- After all four entities are decoded only the pictographic
stripping remains. -/
def dec4 (b : Bool) (c : Char) : Str :=
  if b && emojiChar c then [' '] else [c]

theorem replaceAll_flatMap (p r : Str) (E f : Char → Str)
    (hstep : ∀ c t, replaceAll p r (E c ++ t) = f c ++ replaceAll p r t) :
    ∀ s : Str, replaceAll p r (s.flatMap E) = s.flatMap f
  | [] => by
    rw [List.flatMap_nil, List.flatMap_nil, replaceAll]
  | c :: s => by
    rw [List.flatMap_cons, List.flatMap_cons, hstep,
      replaceAll_flatMap p r E f hstep s]

theorem pass1 (b : Bool) (s : Str) :
    replaceAll sC44 [','] (s.flatMap (encChar b)) = s.flatMap (dec1 b) := by
  apply replaceAll_flatMap
  intro c t
  by_cases h1 : c = '&'
  · subst h1
    show replaceAll sC44 [','] (sAmp ++ t) = sAmp ++ _
    exact replaceAll_block _ _ _ _ (by decide)
  by_cases h2 : c = '['
  · subst h2
    show replaceAll sC44 [','] (sC91 ++ t) = sC91 ++ _
    exact replaceAll_block _ _ _ _ (by decide)
  by_cases h3 : c = ']'
  · subst h3
    show replaceAll sC44 [','] (sC93 ++ t) = sC93 ++ _
    exact replaceAll_block _ _ _ _ (by decide)
  by_cases h4 : c = ','
  · subst h4
    cases b with
    | true =>
      show replaceAll sC44 [','] (sC44 ++ t) = [','] ++ _
      exact replaceAll_head _ _ _ (by decide)
    | false =>
      show replaceAll sC44 [','] (',' :: t) = ',' :: _
      exact replaceAll_cons_ne '&' _ _ _ _ (by decide)
  by_cases h5 : b && emojiChar c
  · have hb : b = true := by
      cases b with
      | true => rfl
      | false => simp at h5
    have he : emojiChar c = true := by
      cases hq : emojiChar c with
      | true => rfl
      | false => rw [hb, hq] at h5; simp at h5
    subst hb
    show replaceAll sC44 [','] (encChar true c ++ t) = dec1 true c ++ _
    rw [encChar, if_neg h1, if_neg h2, if_neg h3, if_pos rfl, if_neg h4, if_pos he]
    rw [dec1, if_neg h1, if_neg h2, if_neg h3]
    simp only [Bool.true_and, he, if_pos]
    show replaceAll sC44 [','] (' ' :: t) = ' ' :: _
    exact replaceAll_cons_ne '&' _ _ _ _ (by decide)
  · have henc : encChar b c = [c] := by
      rw [encChar, if_neg h1, if_neg h2, if_neg h3]
      cases b with
      | false => rfl
      | true =>
        rw [if_pos rfl, if_neg h4, if_neg (by simpa using h5)]
    have hdec : dec1 b c = [c] := by
      rw [dec1, if_neg h1, if_neg h2, if_neg h3, if_neg h5]
    rw [henc, hdec]
    show replaceAll sC44 [','] (c :: t) = c :: _
    exact replaceAll_cons_ne '&' _ _ _ _ h1

theorem pass2 (b : Bool) (s : Str) :
    replaceAll sC91 ['['] (s.flatMap (dec1 b)) = s.flatMap (dec2 b) := by
  apply replaceAll_flatMap
  intro c t
  by_cases h1 : c = '&'
  · subst h1
    show replaceAll sC91 ['['] (sAmp ++ t) = sAmp ++ _
    exact replaceAll_block _ _ _ _ (by decide)
  by_cases h2 : c = '['
  · subst h2
    rw [show dec1 b '[' = sC91 by rw [dec1, if_neg (by decide), if_pos rfl],
        show dec2 b '[' = ['['] by
          rw [dec2, if_neg (by decide), if_neg (by decide), if_neg (by cases b <;> decide)]]
    exact replaceAll_head _ _ _ (by decide)
  by_cases h3 : c = ']'
  · subst h3
    show replaceAll sC91 ['['] (sC93 ++ t) = sC93 ++ _
    exact replaceAll_block _ _ _ _ (by decide)
  by_cases h5 : b && emojiChar c
  · rw [show dec1 b c = [' '] by rw [dec1, if_neg h1, if_neg h2, if_neg h3, if_pos h5],
        show dec2 b c = [' '] by rw [dec2, if_neg h1, if_neg h3, if_pos h5]]
    show replaceAll sC91 ['['] (' ' :: t) = ' ' :: _
    exact replaceAll_cons_ne '&' _ _ _ _ (by decide)
  · rw [show dec1 b c = [c] by rw [dec1, if_neg h1, if_neg h2, if_neg h3, if_neg h5],
        show dec2 b c = [c] by rw [dec2, if_neg h1, if_neg h3, if_neg h5]]
    show replaceAll sC91 ['['] (c :: t) = c :: _
    exact replaceAll_cons_ne '&' _ _ _ _ h1

theorem pass3 (b : Bool) (s : Str) :
    replaceAll sC93 [']'] (s.flatMap (dec2 b)) = s.flatMap (dec3 b) := by
  apply replaceAll_flatMap
  intro c t
  by_cases h1 : c = '&'
  · subst h1
    show replaceAll sC93 [']'] (sAmp ++ t) = sAmp ++ _
    exact replaceAll_block _ _ _ _ (by decide)
  by_cases h3 : c = ']'
  · subst h3
    rw [show dec2 b ']' = sC93 by rw [dec2, if_neg (by decide), if_pos rfl],
        show dec3 b ']' = [']'] by
          rw [dec3, if_neg (by decide), if_neg (by cases b <;> decide)]]
    exact replaceAll_head _ _ _ (by decide)
  by_cases h5 : b && emojiChar c
  · rw [show dec2 b c = [' '] by rw [dec2, if_neg h1, if_neg h3, if_pos h5],
        show dec3 b c = [' '] by rw [dec3, if_neg h1, if_pos h5]]
    show replaceAll sC93 [']'] (' ' :: t) = ' ' :: _
    exact replaceAll_cons_ne '&' _ _ _ _ (by decide)
  · rw [show dec2 b c = [c] by rw [dec2, if_neg h1, if_neg h3, if_neg h5],
        show dec3 b c = [c] by rw [dec3, if_neg h1, if_neg h5]]
    show replaceAll sC93 [']'] (c :: t) = c :: _
    exact replaceAll_cons_ne '&' _ _ _ _ h1

theorem pass4 (b : Bool) (s : Str) :
    replaceAll sAmp ['&'] (s.flatMap (dec3 b)) = s.flatMap (dec4 b) := by
  apply replaceAll_flatMap
  intro c t
  by_cases h1 : c = '&'
  · subst h1
    rw [show dec3 b '&' = sAmp by rw [dec3, if_pos rfl],
        show dec4 b '&' = ['&'] by rw [dec4, if_neg (by cases b <;> decide)]]
    exact replaceAll_head _ _ _ (by decide)
  by_cases h5 : b && emojiChar c
  · rw [show dec3 b c = [' '] by rw [dec3, if_neg h1, if_pos h5],
        show dec4 b c = [' '] by rw [dec4, if_pos h5]]
    show replaceAll sAmp ['&'] (' ' :: t) = ' ' :: _
    exact replaceAll_cons_ne '&' _ _ _ _ (by decide)
  · rw [show dec3 b c = [c] by rw [dec3, if_neg h1, if_neg h5],
        show dec4 b c = [c] by rw [dec4, if_neg h5]]
    show replaceAll sAmp ['&'] (c :: t) = c :: _
    exact replaceAll_cons_ne '&' _ _ _ _ h1

/-- The round trip at the core: unescaping an escaped text yields the
original with the pictographic symbols already replaced by spaces. -/
theorem unescape_escape_flatMap (b : Bool) (s : Str) :
    CQCode.unescape (CQCode.escape s b) = s.flatMap (dec4 b) := by
  rw [escape_eq_flatMap, CQCode.unescape, pass1, pass2, pass3, pass4]

theorem unescape_escape (b : Bool) (s : Str) (hemoji : ∀ c ∈ s, emojiChar c = false) :
    CQCode.unescape (CQCode.escape s b) = s := by
  rw [unescape_escape_flatMap]
  have : ∀ c ∈ s, dec4 b c = [c] := by
    intro c hc
    rw [dec4, if_neg]
    simp [hemoji c hc]
  rw [List.flatMap_congr this]
  simp

instance (s : Str) : Decidable (NoEntitySeq s) := by
  unfold NoEntitySeq
  infer_instance

theorem fieldSafe_parts (c : Char) (h : fieldSafe c = true) :
    reservedChar c = false ∧ emojiChar c = false := by
  have h' : (!(reservedChar c) && !(emojiChar c)) = true := h
  simp only [Bool.and_eq_true, Bool.not_eq_true'] at h'
  exact h'

theorem encChar_eq_single (b : Bool) (c : Char) (h : fieldSafe c = true) : encChar b c = [c] := by
  obtain ⟨hr, he⟩ := fieldSafe_parts c h
  have hc1 : ¬ c = ',' := by intro hx; subst hx; simp [reservedChar] at hr
  have hc3 : ¬ c = '[' := by intro hx; subst hx; simp [reservedChar] at hr
  have hc4 : ¬ c = ']' := by intro hx; subst hx; simp [reservedChar] at hr
  have hc5 : ¬ c = '&' := by intro hx; subst hx; simp [reservedChar] at hr
  rw [encChar, if_neg hc5, if_neg hc3, if_neg hc4]
  cases b with
  | false => rfl
  | true => rw [if_pos rfl, if_neg hc1, if_neg (by simp [he])]

theorem escape_id (b : Bool) (s : Str) (h : ∀ c ∈ s, fieldSafe c = true) :
    CQCode.escape s b = s := by
  rw [escape_eq_flatMap]
  rw [List.flatMap_congr (fun c hc => encChar_eq_single b c (h c hc))]
  simp

theorem unescape_id (s : Str) (h : '&' ∉ s) : CQCode.unescape s = s := by
  rw [CQCode.unescape]
  simp only [sAmp, sC44, sC91, sC93]
  rw [replaceAll_id '&' _ _ s h, replaceAll_id '&' _ _ s h, replaceAll_id '&' _ _ s h,
    replaceAll_id '&' _ _ s h]

/-- C4: plain-mode escaping is exactly the three-substitution chain of
the spec, and inside-field escaping additionally substitutes the comma
and then maps every pictographic symbol in the enumerated ranges to a
single space. -/
theorem spec_c4_escape_modes (s : Str) :
    CQCode.escape s false = escapeSpecPlain s ∧ CQCode.escape s true = escapeSpecInside s := by
  constructor
  · simp [CQCode.escape, escapeSpecPlain, replaceAll_single]
  · simp [CQCode.escape, escapeSpecPlain, escapeSpecInside, replaceAll_single]

/-- C3 amended: unescape inverts escape, in either mode, on strings
without the literal entity sequences and without characters of the
stripped pictographic ranges (the strip is irreversible, so the
original claim needs the extra pictographic condition). -/
theorem spec_c3_roundtrip_amended (s : Str) (b : Bool) (hent : NoEntitySeq s)
    (hemoji : ∀ c ∈ s, emojiChar c = false) :
    CQCode.unescape (CQCode.escape s b) = s :=
  unescape_escape b s hemoji

/-- C3 witness: the spec example string round-trips through the
inside-field mode. -/
theorem spec_c3_roundtrip_witness :
    NoEntitySeq ("a,b[c]d&e".data) ∧ (∀ c ∈ "a,b[c]d&e".data, emojiChar c = false) ∧
      CQCode.unescape (CQCode.escape ("a,b[c]d&e".data) true) = "a,b[c]d&e".data :=
  ⟨by decide, by decide, spec_c3_roundtrip_amended _ true (by decide) (by decide)⟩

/-- C3 counterexample: the black sun pictograph contains no literal
entity sequence, yet inside-field escaping turns it into a space and
unescaping cannot restore it. -/
theorem spec_c3_counterexample :
    NoEntitySeq ['☀'] ∧ CQCode.unescape (CQCode.escape ['☀'] true) ≠ ['☀'] := by
  constructor
  · decide
  · rw [unescape_escape_flatMap]
    decide

theorem takeWhile_append_stop (p : Char → Bool) (l : Str) (d : Char) (t : Str)
    (h1 : ∀ c ∈ l, p c = true) (h2 : p d = false) :
    (l ++ d :: t).takeWhile p = l ∧ (l ++ d :: t).dropWhile p = d :: t := by
  induction l with
  | nil =>
    constructor
    · simp [List.takeWhile_cons, h2]
    · simp [List.dropWhile_cons, h2]
  | cons x xs ih =>
    have hx : p x = true := h1 x (List.mem_cons_self x xs)
    obtain ⟨iht, ihd⟩ := ih (fun c hc => h1 c (List.mem_cons_of_mem _ hc))
    constructor
    · simp only [List.cons_append, List.takeWhile_cons, hx, if_pos]
      rw [iht]
    · simp only [List.cons_append, List.dropWhile_cons, hx, if_pos]
      rw [ihd]

theorem PairsStr_shape (ds : Str) (h : PairsStr ds) : ds = [] ∨ ∃ ds0, ds = ',' :: ds0 := by
  cases h with
  | nil => exact Or.inl rfl
  | cons k v rest hk hkc hvc hr => exact Or.inr ⟨_, rfl⟩

/-- The first character after a raw pair text closed by a bracket is
never a value (or key or type) character. -/
theorem pairs_next_stop (ds : Str) (h : PairsStr ds) (rest : Str) :
    ∃ d t, ds ++ ']' :: rest = d :: t ∧ valChar d = false ∧ keyChar d = false ∧
      typeChar d = false := by
  rcases PairsStr_shape ds h with h0 | ⟨ds0, h0⟩
  · subst h0
    exact ⟨']', rest, rfl, by decide, by decide, by decide⟩
  · subst h0
    exact ⟨',', ds0 ++ ']' :: rest, rfl, by decide, by decide, by decide⟩


theorem matchPairs_complete (ds : Str) (h : PairsStr ds) (rest : Str) :
    matchPairs (ds ++ ']' :: rest) = some (ds, rest) := by
  induction h generalizing rest with
  | nil =>
    rw [List.nil_append, matchPairs]
    simp
  | cons k v rest0 hk hkc hvc hr ih =>
    obtain ⟨d, t0, hd, hdv, hdk, hdt⟩ := pairs_next_stop rest0 hr rest
    have hshape : (',' :: (k ++ '=' :: (v ++ rest0))) ++ ']' :: rest =
        ',' :: (k ++ '=' :: (v ++ (rest0 ++ ']' :: rest))) := by
      simp
    rw [hshape, matchPairs]
    have hkstop := takeWhile_append_stop keyChar k '=' (v ++ (rest0 ++ ']' :: rest)) hkc (by decide)
    have hvstop : (v ++ (rest0 ++ ']' :: rest)).takeWhile valChar = v ∧
        (v ++ (rest0 ++ ']' :: rest)).dropWhile valChar = rest0 ++ ']' :: rest := by
      rw [hd]
      exact ⟨(takeWhile_append_stop valChar v d t0 hvc hdv).1,
        (takeWhile_append_stop valChar v d t0 hvc hdv).2⟩
    rw [if_neg (by decide : ¬(',' : Char) = ']'), if_pos rfl]
    rw [dif_pos (show (v ++ (rest0 ++ ']' :: rest) |> fun w => (k ++ '=' :: w).takeWhile keyChar ≠ [] ∧
        ((k ++ '=' :: w).dropWhile keyChar).head? = some '=') from by
      refine ⟨?_, ?_⟩
      · rw [hkstop.1]
        exact hk
      · rw [hkstop.2]
        rfl)]
    simp only [hkstop.1, hkstop.2, List.tail_cons, hvstop.1, hvstop.2, ih]

theorem head_tail_of_head?_eq (l : Str) (a : Char) (h : l.head? = some a) : l = a :: l.tail := by
  cases l with
  | nil => simp at h
  | cons x xs =>
    simp only [List.head?_cons, Option.some.injEq] at h
    rw [h]
    rfl

theorem matchPairs_sound (s : Str) :
    ∀ ds rest, matchPairs s = some (ds, rest) → s = ds ++ ']' :: rest ∧ PairsStr ds := by
  induction s using matchPairs.induct with
  | case1 =>
    intro ds rest h
    simp [matchPairs] at h
  | case2 r =>
    intro ds rest h
    simp [matchPairs] at h
    obtain ⟨h1, h2⟩ := h
    subst h1
    subst h2
    exact ⟨rfl, PairsStr.nil⟩
  | case3 r hcond rest2 ds0 rest3 hrec hne ih =>
    intro ds rest h
    rw [matchPairs] at h
    simp only [dif_pos hcond] at h
    simp [hrec] at h
    obtain ⟨h1, h2⟩ := h
    subst h2
    obtain ⟨ihs, ihp⟩ := ih ds0 rest3 hrec
    have hr2 : rest2 = (r.dropWhile keyChar).tail := rfl
    have hdropk : r.dropWhile keyChar = '=' :: rest2 := by
      rw [hr2]
      exact head_tail_of_head?_eq _ _ hcond.2
    have hrest2 : rest2 = rest2.takeWhile valChar ++ (ds0 ++ ']' :: rest3) := by
      conv_lhs => rw [← List.takeWhile_append_dropWhile valChar rest2]
      rw [ihs]
    constructor
    · rw [← h1]
      have hr : r = r.takeWhile keyChar ++ ('=' :: rest2) := by
        conv_lhs => rw [← List.takeWhile_append_dropWhile keyChar r]
        rw [hdropk]
      conv_lhs => rw [hr]
      conv_lhs => rw [hrest2]
      simp
    · rw [← h1]
      refine PairsStr.cons _ _ _ hcond.1 ?_ ?_ ihp
      · intro c hc
        exact List.mem_takeWhile_imp hc
      · intro c hc
        exact List.mem_takeWhile_imp hc
  | case4 r hcond rest2 hnone hne ih =>
    intro ds rest h
    rw [matchPairs] at h
    simp only [dif_pos hcond] at h
    simp [hnone] at h
  | case5 r hcond hne =>
    intro ds rest h
    rw [matchPairs] at h
    simp only [dif_neg hcond] at h
    simp at h
  | case6 c r hc1 hc2 =>
    intro ds rest h
    simp [matchPairs, hc1, hc2] at h

theorem tryMatchAt_complete (t ds rest : Str) (ht : GoodType t) (hds : PairsStr ds) :
    tryMatchAt (codeAt t ds rest) = some (t, ds, rest) := by
  obtain ⟨d, t0, hd, hdv, hdk, hdt⟩ := pairs_next_stop ds hds rest
  have hstop : (t ++ (ds ++ ']' :: rest)).takeWhile typeChar = t ∧
      (t ++ (ds ++ ']' :: rest)).dropWhile typeChar = ds ++ ']' :: rest := by
    rw [hd]
    exact takeWhile_append_stop typeChar t d t0 ht.2 hdt
  rw [codeAt, tryMatchAt]
  rw [if_neg (by
    rw [hstop.1]
    simpa using ht.1)]
  rw [hstop.2, matchPairs_complete ds hds rest, hstop.1]

theorem tryMatchAt_sound (s t ds rest : Str) (h : tryMatchAt s = some (t, ds, rest)) :
    s = codeAt t ds rest ∧ GoodType t ∧ PairsStr ds := by
  rw [tryMatchAt.eq_def] at h
  split at h
  · next r =>
    split at h
    · simp at h
    · next hemp =>
      split at h
      · next ds0 rest2 hmp =>
        simp only [Option.some.injEq, Prod.mk.injEq] at h
        obtain ⟨h1, h2, h3⟩ := h
        subst h1
        subst h2
        subst h3
        obtain ⟨hs, hp⟩ := matchPairs_sound _ _ _ hmp
        refine ⟨?_, ⟨by simpa using hemp, fun c hc => List.mem_takeWhile_imp hc⟩, hp⟩
        rw [codeAt]
        conv_lhs => rw [show r = r.takeWhile typeChar ++ r.dropWhile typeChar from
          (List.takeWhile_append_dropWhile typeChar r).symm]
        rw [hs]
      · simp at h
  · simp at h

theorem startsCode_of_tryMatchAt (s t ds rest : Str) (h : tryMatchAt s = some (t, ds, rest)) :
    StartsCode s := by
  obtain ⟨hs, ht, hp⟩ := tryMatchAt_sound s t ds rest h
  exact ⟨t, ds, rest, ht, hp, hs⟩

theorem tryMatchAt_of_startsCode (s : Str) (h : StartsCode s) :
    tryMatchAt s ≠ none := by
  obtain ⟨t, ds, rest, ht, hp, hs⟩ := h
  rw [hs, tryMatchAt_complete t ds rest ht hp]
  simp

/-- The scanner returns exactly the left-to-right, non-overlapping
decomposition of the text into its well-formed inline codes. -/
theorem scan_matches (s : Str) : Matches s (scanCQ s) := by
  induction s using scanCQ.induct with
  | case1 =>
    rw [scanCQ]
    exact Matches.nil
  | case2 c rest t ds rest2 hm ih =>
    obtain ⟨hs, ht, hp⟩ := tryMatchAt_sound _ t ds rest2 hm
    rw [scanCQ]
    split
    · next t' ds' rest2' hm' =>
      rw [hm] at hm'
      simp only [Option.some.injEq, Prod.mk.injEq] at hm'
      obtain ⟨h1, h2, h3⟩ := hm'
      subst h1
      subst h2
      subst h3
      rw [hs]
      exact Matches.found t ds rest2 _ ht hp ih
    · next hm' =>
      rw [hm] at hm'
      simp at hm'
  | case3 c rest hm ih =>
    rw [scanCQ]
    split
    · next t' ds' rest2' hm' =>
      rw [hm] at hm'
      simp at hm'
    · next =>
      refine Matches.skip c rest _ ?_ ih
      intro hsc
      exact tryMatchAt_of_startsCode _ hsc hm

theorem scanCQ_cons_none (c : Char) (rest : Str) (hm : tryMatchAt (c :: rest) = none) :
    scanCQ (c :: rest) = scanCQ rest := by
  rw [scanCQ]
  split
  · next hm' =>
    rw [hm] at hm'
    simp at hm'
  · rfl

theorem scanCQ_cons_some (c : Char) (rest t ds rest2 : Str)
    (hm : tryMatchAt (c :: rest) = some (t, ds, rest2)) :
    scanCQ (c :: rest) = (t, ds) :: scanCQ rest2 := by
  rw [scanCQ]
  split
  · next t' ds' r' hm' =>
    rw [hm] at hm'
    simp only [Option.some.injEq, Prod.mk.injEq] at hm'
    obtain ⟨h1, h2, h3⟩ := hm'
    subst h1
    subst h2
    subst h3
    rfl
  · next hm' =>
    rw [hm] at hm'
    simp at hm'

/-- A single well-formed code standing alone is scanned as exactly one
match. -/
theorem scanCQ_code (t ds : Str) (ht : GoodType t) (hds : PairsStr ds) :
    scanCQ (codeAt t ds []) = [(t, ds)] := by
  have hm : tryMatchAt (codeAt t ds []) = some (t, ds, []) := tryMatchAt_complete t ds [] ht hds
  rw [codeAt] at hm ⊢
  rw [scanCQ_cons_some _ _ _ _ _ hm]
  rw [scanCQ]

theorem scanCQ_nil_of_not_mem (s : Str) (h : ']' ∉ s ∨ '[' ∉ s) : scanCQ s = [] := by
  induction s using scanCQ.induct with
  | case1 => rw [scanCQ]
  | case2 c rest t ds rest2 hm ih =>
    exfalso
    obtain ⟨hs, ht, hp⟩ := tryMatchAt_sound _ t ds rest2 hm
    rcases h with h | h
    · apply h
      rw [hs, codeAt]
      simp
    · apply h
      rw [hs, codeAt]
      simp
  | case3 c rest hm ih =>
    rw [scanCQ_cons_none c rest hm]
    apply ih
    rcases h with h | h
    · exact Or.inl (fun hc => h (List.mem_cons_of_mem _ hc))
    · exact Or.inr (fun hc => h (List.mem_cons_of_mem _ hc))

theorem intercalate_comma_cons (x : Str) (l : List Str) :
    List.intercalate [','] (x :: l) = x ++ l.flatMap (fun y => ',' :: y) := by
  induction l generalizing x with
  | nil => simp [List.intercalate, List.intersperse]
  | cons y ys ih =>
    rw [List.intercalate, List.intersperse_cons_cons, List.flatten_cons, List.flatten_cons]
    have := ih y
    rw [List.intercalate] at this
    rw [this]
    simp

/-- C5: serialization is exactly the spec shape — the opening tag and
type, one comma-key-equals-value group per field in insertion order
with nil-valued fields omitted, a closing bracket; deleting the only
field of a reply entity, or setting it to nil, serializes to the bare
reply code. -/
theorem spec_c5_serialize :
    (∀ c : CQCode, CQCode.toString c = serializeSpec c) ∧
    CQCode.toString ((CQCode.set { type := "reply".data, data := [] } "id".data
        (CQVal.num 5)).del "id".data) = "[CQ:reply]".data ∧
    CQCode.toString { type := "reply".data, data := [("id".data, CQVal.nil)] } =
      "[CQ:reply]".data := by
  refine ⟨?_, by decide, by decide⟩
  intro c
  show '[' :: List.intercalate [','] _ ++ [']'] = _
  rw [intercalate_comma_cons, serializeSpec]
  rw [List.flatMap_map]
  simp [Function.comp, CQCode.escapeInsideCQ, CQVal.render]

/-- C7: the scanner is total by construction, and malformed text is
simply skipped — in particular a text with no closing bracket at all
(a stray opening of a code included) yields no entity, and so does a
text with no opening bracket. -/
theorem spec_c7_malformed (s : Str) :
    (']' ∉ s → CQCode.fromStr s = []) ∧ ('[' ∉ s → CQCode.fromStr s = []) := by
  constructor
  · intro h
    rw [CQCode.fromStr, scanCQ_nil_of_not_mem s (Or.inl h)]
    rfl
  · intro h
    rw [CQCode.fromStr, scanCQ_nil_of_not_mem s (Or.inr h)]
    rfl

/-- C7 witness: a stray unclosed code produces no entity and no
error. -/
theorem spec_c7_malformed_witness : CQCode.fromStr "[CQ:at,qq=1".data = [] :=
  (spec_c7_malformed _).1 (by decide)

theorem parseKV_split (obj : List (Str × CQVal)) (k v : Str) (hk : '=' ∉ k) :
    CQCode.parseKV obj (k ++ '=' :: v) =
      assocSet obj (CQCode.unescape k) (CQVal.str (CQCode.unescape v)) := by
  rw [CQCode.parseKV]
  have hsplit : (k ++ '=' :: v).splitOn '=' = k :: v.splitOn '=' := by
    simp only [List.splitOn]
    exact List.splitOnP_first _ k (fun x hx => by
      simp only [beq_iff_eq]
      exact fun he => hk (he ▸ hx)) '=' (by simp) v
  rw [hsplit]
  show assocSet obj (CQCode.unescape k)
    (CQVal.str (CQCode.unescape (List.intercalate ['='] (v.splitOn '=')))) = _
  rw [List.intercalate_splitOn]

/-- C6: the parser output is the left-to-right non-overlapping
decomposition of the text into grammar matches, the returned entities
carry the matched type verbatim with the processed data, and each raw
pair is split at its first equals sign with later equals signs kept in
the value and both halves unescaped. -/
theorem spec_c6_scan :
    (∀ s, Matches s (scanCQ s)) ∧
    (∀ s, CQCode.fromStr s =
      (scanCQ s).map (fun td => { type := td.1, data := CQCode.parseData td.2 })) ∧
    (∀ obj k v, '=' ∉ k →
      CQCode.parseKV obj (k ++ '=' :: v) =
        assocSet obj (CQCode.unescape k) (CQVal.str (CQCode.unescape v))) :=
  ⟨scan_matches, fun s => rfl, parseKV_split⟩

/-- C6 witness: the parity conjuncts applied at concrete inputs; the
value keeps its second equals sign. -/
theorem spec_c6_scan_witness :
    Matches "ab".data (scanCQ "ab".data) ∧
    CQCode.parseKV [] ("qq".data ++ '=' :: "1=2".data) =
      assocSet [] (CQCode.unescape "qq".data) (CQVal.str (CQCode.unescape "1=2".data)) :=
  ⟨spec_c6_scan.1 _, spec_c6_scan.2.2 [] _ _ (by decide)⟩

instance (t : Str) : Decidable (GoodType t) := by
  unfold GoodType
  infer_instance

theorem fieldSafe_reserved (c : Char) (h : fieldSafe c = true) :
    c ≠ ',' ∧ c ≠ '=' ∧ c ≠ '[' ∧ c ≠ ']' ∧ c ≠ '&' := by
  obtain ⟨hr, he⟩ := fieldSafe_parts c h
  refine ⟨?_, ?_, ?_, ?_, ?_⟩ <;> intro hx <;> subst hx <;> simp [reservedChar] at hr

theorem fieldSafe_keyChar (c : Char) (h : fieldSafe c = true) : keyChar c = true := by
  obtain ⟨h1, h2, h3, h4, h5⟩ := fieldSafe_reserved c h
  simp [keyChar, h1, h2, h3, h4]

theorem fieldSafe_valChar (c : Char) (h : fieldSafe c = true) : valChar c = true := by
  obtain ⟨h1, h2, h3, h4, h5⟩ := fieldSafe_reserved c h
  simp [valChar, h1, h3, h4]

theorem not_mem_of_all_fieldSafe (l : Str) (c : Char) (hc : fieldSafe c = false)
    (h : ∀ x ∈ l, fieldSafe x = true) : c ∉ l := by
  intro hmem
  rw [h c hmem] at hc
  exact absurd hc (by simp)

/-- The raw pair text that serialization produces for a data list whose
escaping is trivial. -/
def pairsRaw (l : List (Str × CQVal)) : Str :=
  l.flatMap (fun kv => ',' :: (kv.1 ++ '=' :: kv.2.render))

theorem toString_list_flatMap (l : List (Str × CQVal))
    (h : ∀ kv ∈ l, (CQCode.escape kv.1 true = kv.1) ∧ CQCode.escapeInsideCQ kv.2 = kv.2) :
    (l.map (fun kv => (CQCode.escapeInsideCQ (CQVal.str kv.1)).render ++ '=' ::
        (CQCode.escapeInsideCQ kv.2).render)).flatMap (fun y => ',' :: y) = pairsRaw l := by
  induction l with
  | nil => rfl
  | cons kv rest ih =>
    obtain ⟨hk, hv⟩ := h kv (List.mem_cons_self _ _)
    have hpair : (CQCode.escapeInsideCQ (CQVal.str kv.1)).render ++ '=' ::
        (CQCode.escapeInsideCQ kv.2).render = kv.1 ++ '=' :: kv.2.render := by
      show CQCode.escape kv.1 true ++ '=' :: (CQCode.escapeInsideCQ kv.2).render = _
      rw [hk, hv]
    rw [List.map_cons, List.flatMap_cons, hpair, ih (fun x hx => h x (List.mem_cons_of_mem _ hx))]
    rfl

theorem toString_eq_codeAt (e : CQCode)
    (h : ∀ kv ∈ e.data, (CQCode.escape kv.1 true = kv.1) ∧ kv.2.isNil = false ∧
      CQCode.escapeInsideCQ kv.2 = kv.2) :
    CQCode.toString e = codeAt e.type (pairsRaw e.data) [] := by
  show '[' :: List.intercalate [','] _ ++ [']'] = _
  rw [intercalate_comma_cons, codeAt]
  have hfilter : e.data.filter (fun kv => !(kv.2.isNil)) = e.data :=
    List.filter_eq_self.mpr (fun kv hkv => by rw [(h kv hkv).2.1]; rfl)
  rw [hfilter]
  rw [toString_list_flatMap e.data (fun kv hkv => ⟨(h kv hkv).1, (h kv hkv).2.2⟩)]
  simp

theorem pairsStr_pairsRaw (l : List (Str × CQVal))
    (h : ∀ kv ∈ l, kv.1 ≠ [] ∧ (∀ c ∈ kv.1, keyChar c = true) ∧
      (∀ c ∈ kv.2.render, valChar c = true)) :
    PairsStr (pairsRaw l) := by
  induction l with
  | nil => exact PairsStr.nil
  | cons kv rest ih =>
    have hshape : pairsRaw (kv :: rest) =
        ',' :: (kv.1 ++ '=' :: (kv.2.render ++ pairsRaw rest)) := by
      rw [pairsRaw, List.flatMap_cons]
      simp [pairsRaw]
    rw [hshape]
    obtain ⟨h1, h2, h3⟩ := h kv (List.mem_cons_self _ _)
    exact PairsStr.cons _ _ _ h1 h2 h3 (ih (fun x hx => h x (List.mem_cons_of_mem _ hx)))

theorem assocSet_fresh (acc : List (Str × CQVal)) (k : Str) (v : CQVal)
    (h : ∀ kv ∈ acc, kv.1 ≠ k) : assocSet acc k v = acc ++ [(k, v)] := by
  induction acc with
  | nil => rfl
  | cons kv rest ih =>
    rw [assocSet]
    rw [if_neg (h kv (List.mem_cons_self _ _))]
    rw [ih (fun x hx => h x (List.mem_cons_of_mem _ hx))]
    rfl

theorem foldl_parseKV_fresh (l : List (Str × CQVal)) (acc : List (Str × CQVal))
    (hk : ∀ kv ∈ l, '=' ∉ kv.1 ∧ '&' ∉ kv.1 ∧ '&' ∉ kv.2.render)
    (hfresh : ∀ kv ∈ l, ∀ kv2 ∈ acc, kv2.1 ≠ kv.1)
    (hnodup : (l.map Prod.fst).Nodup) :
    (l.map (fun kv => kv.1 ++ '=' :: kv.2.render)).foldl CQCode.parseKV acc =
      acc ++ l.map (fun kv => (kv.1, CQVal.str kv.2.render)) := by
  induction l generalizing acc with
  | nil => simp
  | cons kv rest ih =>
    obtain ⟨hk1, hk2, hk3⟩ := hk kv (List.mem_cons_self _ _)
    rw [List.map_cons, List.foldl_cons]
    rw [parseKV_split acc kv.1 kv.2.render hk1]
    rw [unescape_id kv.1 hk2, unescape_id kv.2.render hk3]
    rw [assocSet_fresh acc kv.1 _ (hfresh kv (List.mem_cons_self _ _))]
    rw [ih (acc ++ [(kv.1, CQVal.str kv.2.render)])
      (fun x hx => hk x (List.mem_cons_of_mem _ hx))
      ?_ ?_]
    · simp
    · intro x hx kv2 hkv2
      rcases List.mem_append.mp hkv2 with hin | hin
      · exact hfresh x (List.mem_cons_of_mem _ hx) kv2 hin
      · have : kv2 = (kv.1, CQVal.str kv.2.render) := by simpa using hin
        subst this
        show kv.1 ≠ x.1
        rw [List.map_cons, List.nodup_cons] at hnodup
        intro he
        exact hnodup.1 (he ▸ List.mem_map_of_mem Prod.fst hx)
    · rw [List.map_cons, List.nodup_cons] at hnodup
      exact hnodup.2

theorem parseData_pairsRaw (l : List (Str × CQVal))
    (hkey : ∀ kv ∈ l, kv.1 ≠ [] ∧ '&' ∉ kv.1 ∧ '=' ∉ kv.1 ∧ ',' ∉ kv.1)
    (hval : ∀ kv ∈ l, '&' ∉ kv.2.render ∧ ',' ∉ kv.2.render)
    (hnodup : (l.map Prod.fst).Nodup) :
    CQCode.parseData (pairsRaw l) = l.map (fun kv => (kv.1, CQVal.str kv.2.render)) := by
  rw [CQCode.parseData]
  have hinter : pairsRaw l = [','].intercalate ([] :: l.map (fun kv => kv.1 ++ '=' :: kv.2.render)) := by
    rw [show [','].intercalate ([] :: l.map (fun kv => kv.1 ++ '=' :: kv.2.render)) =
        List.intercalate [','] ([] :: l.map (fun kv => kv.1 ++ '=' :: kv.2.render)) from rfl]
    rw [intercalate_comma_cons, List.nil_append, List.flatMap_map]
    rfl
  have hsplit : (pairsRaw l).splitOn ',' = [] :: l.map (fun kv => kv.1 ++ '=' :: kv.2.render) := by
    rw [hinter]
    apply List.splitOn_intercalate
    · intro piece hp
      rcases List.mem_cons.mp hp with h0 | h0
      · subst h0
        simp
      · obtain ⟨kv, hkv, hpe⟩ := List.mem_map.mp h0
        subst hpe
        intro hmem
        rcases List.mem_append.mp hmem with hin | hin
        · exact (hkey kv hkv).2.2.2 hin
        · rcases List.mem_cons.mp hin with h1 | h1
          · exact absurd h1 (by decide)
          · exact (hval kv hkv).2 h1
    · simp
  rw [hsplit]
  have hfilt : (([] :: l.map (fun kv => kv.1 ++ '=' :: kv.2.render)).filter
      (fun x => !x.isEmpty)) = l.map (fun kv => kv.1 ++ '=' :: kv.2.render) := by
    rw [List.filter_cons]
    simp only [List.isEmpty_nil, Bool.not_true, Bool.false_eq_true, if_false]
    apply List.filter_eq_self.mpr
    intro piece hp
    obtain ⟨kv, hkv, hpe⟩ := List.mem_map.mp hp
    subst hpe
    simp [List.isEmpty_eq_false]
  rw [hfilt]
  exact foldl_parseKV_fresh l []
    (fun kv hkv => ⟨(hkey kv hkv).2.2.1, (hkey kv hkv).2.1, (hval kv hkv).1⟩)
    (fun kv hkv kv2 hkv2 => absurd hkv2 (List.not_mem_nil _))
    hnodup

/-- C1 amended: round trip of serialize-then-parse, for entities whose
type is nonempty without comma or brackets, whose keys are nonempty and
distinct, whose values are all strings, and whose keys and values use
only characters outside the reserved set and outside the stripped
pictographic ranges. -/
theorem spec_c1_roundtrip_amended (e : CQCode)
    (ht : e.type ≠ [] ∧ ∀ c ∈ e.type, typeChar c = true)
    (hkv : ∀ kv ∈ e.data, kv.1 ≠ [] ∧ (∀ c ∈ kv.1, fieldSafe c = true) ∧
      ∃ tv, kv.2 = CQVal.str tv ∧ ∀ c ∈ tv, fieldSafe c = true)
    (hnodup : (e.data.map Prod.fst).Nodup) :
    ∃ e2, CQCode.fromStr (CQCode.toString e) = [e2] ∧ structEq e2 e := by
  refine ⟨e, ?_, rfl, fun k => rfl⟩
  have hesc : ∀ kv ∈ e.data, (CQCode.escape kv.1 true = kv.1) ∧ kv.2.isNil = false ∧
      CQCode.escapeInsideCQ kv.2 = kv.2 := by
    intro kv hkv2
    obtain ⟨hk1, hk2, tv, htv, htv2⟩ := hkv kv hkv2
    refine ⟨escape_id true kv.1 hk2, ?_, ?_⟩
    · rw [htv]
      rfl
    · rw [htv, CQCode.escapeInsideCQ, escape_id true tv htv2]
  rw [toString_eq_codeAt e hesc, CQCode.fromStr]
  rw [scanCQ_code e.type (pairsRaw e.data) ⟨ht.1, ht.2⟩ ?_]
  · rw [List.map_cons, List.map_nil]
    rw [parseData_pairsRaw e.data ?_ ?_ hnodup]
    · have hid : ∀ kv ∈ e.data, (kv.1, CQVal.str kv.2.render) = kv := by
        intro kv hkv2
        obtain ⟨hk1, hk2, tv, htv, htv2⟩ := hkv kv hkv2
        cases kv with
        | mk k1 v1 =>
          simp only at htv
          rw [htv]
          rfl
      rw [(List.map_congr_left hid).trans (List.map_id _)]
    · intro kv hkv2
      obtain ⟨hk1, hk2, tv, htv, htv2⟩ := hkv kv hkv2
      exact ⟨hk1,
        not_mem_of_all_fieldSafe kv.1 '&' (by decide) hk2,
        not_mem_of_all_fieldSafe kv.1 '=' (by decide) hk2,
        not_mem_of_all_fieldSafe kv.1 ',' (by decide) hk2⟩
    · intro kv hkv2
      obtain ⟨hk1, hk2, tv, htv, htv2⟩ := hkv kv hkv2
      rw [htv]
      exact ⟨not_mem_of_all_fieldSafe tv '&' (by decide) htv2,
        not_mem_of_all_fieldSafe tv ',' (by decide) htv2⟩
  · apply pairsStr_pairsRaw
    intro kv hkv2
    obtain ⟨hk1, hk2, tv, htv, htv2⟩ := hkv kv hkv2
    refine ⟨hk1, fun c hc => fieldSafe_keyChar c (hk2 c hc), ?_⟩
    rw [htv]
    exact fun c hc => fieldSafe_valChar c (htv2 c hc)

/-- C1 witness: a mention-like entity with a plain numeric string value
round-trips to a structurally equal entity. -/
theorem spec_c1_roundtrip_witness :
    ∃ e2, CQCode.fromStr (CQCode.toString
      { type := "at".data, data := [("qq".data, CQVal.str "123".data)] }) = [e2] ∧
      structEq e2 { type := "at".data, data := [("qq".data, CQVal.str "123".data)] } :=
  spec_c1_roundtrip_amended _ (by decide)
    (fun kv hkv => by
      have hkv2 : kv = ("qq".data, CQVal.str "123".data) := by simpa using hkv
      subst hkv2
      exact ⟨by decide, by decide, "123".data, rfl, by decide⟩)
    (by decide)

/-- C1 counterexample: the entity of type a with the single field k
whose value is the black sun pictograph satisfies the stated reserved
set hypothesis, yet serialization strips the pictograph to a space and
parsing returns an entity that is not structurally equal to the
original. -/
theorem spec_c1_counterexample :
    claimC1Hyp { type := "a".data, data := [("k".data, CQVal.str ['☀'])] } ∧
    ¬ ∃ e2, CQCode.fromStr (CQCode.toString
        { type := "a".data, data := [("k".data, CQVal.str ['☀'])] }) = [e2] ∧
      structEq e2 { type := "a".data, data := [("k".data, CQVal.str ['☀'])] } := by
  constructor
  · intro kv hkv
    have hkv2 : kv = ("k".data, CQVal.str ['☀']) := by simpa using hkv
    subst hkv2
    refine ⟨by decide, ?_⟩
    intro t ht c hc
    have ht2 : t = ['☀'] := by
      simpa using ht.symm
    subst ht2
    revert c hc
    decide
  · have hk : CQCode.escape "k".data true = "k".data := escape_id true _ (by decide)
    have hs : CQCode.escape ['☀'] true = [' '] := by
      rw [escape_eq_flatMap]
      decide
    have htos : CQCode.toString { type := "a".data, data := [("k".data, CQVal.str ['☀'])] } =
        '[' :: List.intercalate [','] [('C' :: 'Q' :: ':' :: "a".data),
          (CQCode.escape "k".data true ++ '=' :: CQCode.escape ['☀'] true)] ++ [']'] := rfl
    rw [hk, hs] at htos
    have hcode : CQCode.toString { type := "a".data, data := [("k".data, CQVal.str ['☀'])] } =
        codeAt "a".data (pairsRaw [("k".data, CQVal.str [' '])]) [] := by
      rw [htos]
      decide
    intro hex
    obtain ⟨e2, h1, h2⟩ := hex
    rw [hcode, CQCode.fromStr,
      scanCQ_code "a".data (pairsRaw [("k".data, CQVal.str [' '])]) (by decide) ?hp] at h1
    case hp =>
      apply pairsStr_pairsRaw
      decide
    rw [List.map_cons, List.map_nil] at h1
    rw [parseData_pairsRaw [("k".data, CQVal.str [' '])] (by decide) (by decide) (by decide)] at h1
    have he2 : e2 = { type := "a".data, data := [("k".data, CQVal.str [' '])] } := by
      simpa using h1.symm
    subst he2
    have := h2.2 "k".data
    simp [assocGet] at this

theorem assocSet_values (obj : List (Str × CQVal)) (k : Str) (v : CQVal)
    (P : CQVal → Prop) (hobj : ∀ p ∈ obj, P p.2) (hv : P v) :
    ∀ p ∈ assocSet obj k v, P p.2 := by
  induction obj with
  | nil =>
    intro p hp
    have : p = (k, v) := by simpa [assocSet] using hp
    rw [this]
    exact hv
  | cons kv rest ih =>
    intro p hp
    rw [assocSet] at hp
    by_cases hk : kv.1 = k
    · rw [if_pos hk] at hp
      rcases List.mem_cons.mp hp with h0 | h0
      · rw [h0]
        exact hv
      · exact hobj p (List.mem_cons_of_mem _ h0)
    · rw [if_neg hk] at hp
      rcases List.mem_cons.mp hp with h0 | h0
      · rw [h0]
        exact hobj kv (List.mem_cons_self _ _)
      · exact ih (fun q hq => hobj q (List.mem_cons_of_mem _ hq)) p h0

theorem parseKV_values_str (obj : List (Str × CQVal)) (kv : Str)
    (h : ∀ p ∈ obj, ∃ t, p.2 = CQVal.str t) :
    ∀ p ∈ CQCode.parseKV obj kv, ∃ t, p.2 = CQVal.str t := by
  rw [CQCode.parseKV]
  split
  · exact h
  · next k vs =>
    exact assocSet_values obj _ _ (fun v => ∃ t, v = CQVal.str t) h ⟨_, rfl⟩

theorem foldl_parseKV_values (pieces : List Str) (obj : List (Str × CQVal))
    (hobj : ∀ p ∈ obj, ∃ t, p.2 = CQVal.str t) :
    ∀ p ∈ pieces.foldl CQCode.parseKV obj, ∃ t, p.2 = CQVal.str t := by
  induction pieces generalizing obj with
  | nil => exact hobj
  | cons piece rest ih =>
    rw [List.foldl_cons]
    exact ih _ (parseKV_values_str obj piece hobj)

/-- C10: every entity the parser returns holds only string values;
serializing the numeric reply builder and re-parsing yields the decimal
string form of the id, not the original number, so serialize-then-parse
is not the identity on entities holding non-string values. -/
theorem spec_c10_parsed_values :
    (∀ s e, e ∈ CQCode.fromStr s → ∀ kv ∈ e.data, ∃ t, kv.2 = CQVal.str t) ∧
    CQCode.fromStr (CQCode.reply 9) =
      [{ type := "reply".data, data := [("id".data, CQVal.str "9".data)] }] ∧
    CQCode.fromStr (CQCode.toString { type := "reply".data, data := [("id".data, CQVal.num 9)] })
      ≠ [{ type := "reply".data, data := [("id".data, CQVal.num 9)] }] := by
  have hconc : CQCode.fromStr (CQCode.reply 9) =
      [{ type := "reply".data, data := [("id".data, CQVal.str "9".data)] }] := by
    rw [show CQCode.reply 9 =
      CQCode.toString { type := "reply".data, data := [("id".data, CQVal.num 9)] } from rfl]
    rw [toString_eq_codeAt _ (by
      intro kv hkv
      have hkv2 : kv = ("id".data, CQVal.num 9) := by simpa using hkv
      subst hkv2
      exact ⟨escape_id true _ (by decide), rfl, rfl⟩)]
    rw [CQCode.fromStr, scanCQ_code _ _ (by decide) (pairsStr_pairsRaw _ (by decide))]
    rw [List.map_cons, List.map_nil, parseData_pairsRaw _ (by decide) (by decide) (by decide)]
    decide
  refine ⟨?_, hconc, ?_⟩
  · intro s e he kv hkv
    rw [CQCode.fromStr] at he
    obtain ⟨td, htd, hee⟩ := List.mem_map.mp he
    rw [← hee] at hkv
    exact foldl_parseKV_values _ [] (by simp) kv hkv
  · rw [show CQCode.toString { type := "reply".data, data := [("id".data, CQVal.num 9)] } =
      CQCode.reply 9 from rfl]
    rw [hconc]
    decide

/-- A failure at some stage after the initial cache lookup decision:
the lookup itself throws, or the lookup misses and the transport fails,
or the lookup misses, the transport succeeds and the cache write
fails. -/
def PrefetchFailure (env : PrefetchEnv) (url : Str) : Prop :=
  (∃ e, env.getCache url = .error e) ∨
  (env.getCache url = .ok none ∧ ∃ e, env.retryGet url = .error e) ∨
  (env.getCache url = .ok none ∧
    ∃ b, env.retryGet url = .ok b ∧ ∃ e, env.createCache url b = .error e)

/-- An environment with an empty cache and an always-failing
transport. -/
def failEnv : PrefetchEnv where
  getCache := fun _ => .ok none
  retryGet := fun _ => .error "network down".data
  createCache := fun _ _ => .error "unreachable".data

/-- An environment whose cache lookup always hits. -/
def hitEnv : PrefetchEnv where
  getCache := fun _ => .ok (some "/tmp/a.png".data)
  retryGet := fun _ => .error "network down".data
  createCache := fun _ _ => .error "unreachable".data

/-- The image code over the local-file URL of a cached path. -/
def imgFileURL (path : Str) (t : CQVal) : Str :=
  CQCode.toString { type := "image".data, data := [("file".data, CQVal.obj (pathToFileURL path)), ("type".data, t)] }

/-- C2: whenever a stage of the pre-fetch fails, the call logs at least
once, does not raise (it is a total function of the environment), and
returns exactly the serialized image code over the original URL. -/
theorem spec_c2_prefetch_fallback (env : PrefetchEnv) (url : Str) (t : CQVal)
    (h : PrefetchFailure env url) :
    (CQCode.imgPreDl env url t).2 = CQCode.img url t ∧
    1 ≤ ((CQCode.imgPreDl env url t).1.filter Effect.isLog).length := by
  rcases h with ⟨e, he⟩ | ⟨hc, e, he⟩ | ⟨hc, b, hb, e, he⟩
  · rw [CQCode.imgPreDl]
    simp [he, errLog, Effect.isLog]
  · rw [CQCode.imgPreDl]
    simp [he, hc, errLog, Effect.isLog]
  · rw [CQCode.imgPreDl]
    simp [he, hc, hb, errLog, Effect.isLog]

/-- C2 witness: with an always-failing transport and an empty cache the
result is the image code over the original URL and the logger ran. -/
theorem spec_c2_prefetch_fallback_witness :
    (CQCode.imgPreDl failEnv "http://x/y.png".data CQVal.nil).2 =
      CQCode.img "http://x/y.png".data CQVal.nil ∧
    1 ≤ ((CQCode.imgPreDl failEnv "http://x/y.png".data CQVal.nil).1.filter Effect.isLog).length :=
  spec_c2_prefetch_fallback failEnv _ CQVal.nil (Or.inr (Or.inl ⟨rfl, _, rfl⟩))

/-- C9: on a cache hit the pre-fetch performs exactly the one lookup —
no transport call, no limiter slot — and returns the image code whose
file field is the local-file URL of the cached path, which is never the
bare path itself. -/
theorem spec_c9_cache_hit (env : PrefetchEnv) (url : Str) (t : CQVal) (path : Str)
    (h : env.getCache url = .ok (some path)) :
    CQCode.imgPreDl env url t = ([Effect.cacheLookup url], imgFileURL path t) ∧
    Effect.transportGet url ∉ (CQCode.imgPreDl env url t).1 ∧
    Effect.limiterAcquire ∉ (CQCode.imgPreDl env url t).1 ∧
    pathToFileURL path ≠ path := by
  have h1 : CQCode.imgPreDl env url t = ([Effect.cacheLookup url], imgFileURL path t) := by
    rw [CQCode.imgPreDl]
    simp [h, imgFileURL]
  refine ⟨h1, ?_, ?_, ?_⟩
  · rw [h1]
    simp
  · rw [h1]
    simp
  · intro he
    have hlen := congrArg List.length he
    simp [pathToFileURL] at hlen
    omega

/-- C9 witness: a concrete hit environment takes the hit branch. -/
theorem spec_c9_cache_hit_witness :
    CQCode.imgPreDl hitEnv "http://x/y.png".data CQVal.nil =
      ([Effect.cacheLookup "http://x/y.png".data], imgFileURL "/tmp/a.png".data CQVal.nil) ∧
    Effect.transportGet "http://x/y.png".data ∉
      (CQCode.imgPreDl hitEnv "http://x/y.png".data CQVal.nil).1 ∧
    Effect.limiterAcquire ∉ (CQCode.imgPreDl hitEnv "http://x/y.png".data CQVal.nil).1 ∧
    pathToFileURL "/tmp/a.png".data ≠ "/tmp/a.png".data :=
  spec_c9_cache_hit hitEnv _ CQVal.nil _ rfl

/-- C8: in the limiter model every state reachable from the idle gate
with the source capacity of four has at most four running downloads,
whatever the number of submitted jobs. -/
theorem spec_c8_limiter_bound (s : LimiterState) (h : LimiterReach dlImgLimitCap s) :
    s.active ≤ 4 := by
  induction h with
  | init => decide
  | step hr hs ih =>
    cases hs with
    | submit a p => exact ih
    | start a p hlt =>
      have hcap : dlImgLimitCap = 4 := rfl
      rw [hcap] at hlt
      show a + 1 ≤ 4
      omega
    | finish a p =>
      have : a + 1 ≤ 4 := ih
      show a ≤ 4
      omega

/-- C8 witness: five submitted jobs with four started stay within the
bound. -/
theorem spec_c8_limiter_bound_witness : (⟨4, 1⟩ : LimiterState).active ≤ 4 :=
  spec_c8_limiter_bound _ (.step (.step (.step (.step (.step (.step (.step (.step (.step .init
    (.submit 0 0)) (.submit 0 1)) (.submit 0 2)) (.submit 0 3)) (.submit 0 4))
    (.start 0 4 (by decide))) (.start 1 3 (by decide))) (.start 2 2 (by decide)))
    (.start 3 1 (by decide)))

/-- C10 witness: the invariant applied to the entity parsed back from
the serialized reply builder. -/
theorem spec_c10_parsed_values_witness :
    ∃ t, (("id".data, CQVal.str "9".data) : Str × CQVal).2 = CQVal.str t :=
  spec_c10_parsed_values.1 (CQCode.reply 9)
    { type := "reply".data, data := [("id".data, CQVal.str "9".data)] }
    (by rw [spec_c10_parsed_values.2.1]; simp)
    ("id".data, CQVal.str "9".data) (by simp)
